import Mathlib

/-!
Verification of the AniDB → MeiliSearch indexer (`main.py`).

The development shallowly embeds the transformation pipeline of the
indexer: the key slugifier (`slugify(..., separator="_")` from
python-slugify, modelled on the ASCII alphabet actually used by the
program), the per-entry normalizer (the body of the `for anime in
animes` loop of `parse_and_index`), the batch accumulator (the
`data_queue` / `index % 500` logic), and the driver sequence of
`main` (connection, index clearing, parsing, streaming).

Strings are represented as `List Char`; Python dicts are represented
as association lists with insert-or-update semantics preserving
insertion order, exactly matching CPython dict behaviour for the
operations the program performs.
-/

namespace AniDB

/-- ASCII lowercasing, as applied by python-slugify (`text.lower()`);
only the ASCII range matters for the program's inputs. -/
def toLowerChar (c : Char) : Char :=
  if 65 ≤ c.toNat ∧ c.toNat ≤ 90 then Char.ofNat (c.toNat + 32) else c

/-- Characters kept by python-slugify after lowercasing: the pattern
`[^-a-z0-9]` treats exactly lowercase letters and digits as word
characters (hyphens are later themselves collapsed into separators). -/
def isAlnumLower (c : Char) : Bool :=
  (97 ≤ c.toNat && c.toNat ≤ 122) || (48 ≤ c.toNat && c.toNat ≤ 57)

/-- Splits a character list into its maximal runs of word characters,
dropping all separator characters.  `acc` is the word in progress,
reversed. -/
def splitWordsAux : List Char → List Char → List (List Char)
  | [], acc => if acc = [] then [] else [acc.reverse]
  | c :: cs, acc =>
    if isAlnumLower c then splitWordsAux cs (c :: acc)
    else if acc = [] then splitWordsAux cs [] else acc.reverse :: splitWordsAux cs []

def splitWords (s : List Char) : List (List Char) :=
  splitWordsAux s []

/-- Joins words with a single separator character; `joinWords '_' ws`
is the final join step of python-slugify with `separator="_"`. -/
def joinWords (sep : Char) : List (List Char) → List Char
  | [] => []
  | [w] => w
  | w :: ws => w ++ sep :: joinWords sep ws

/-- Net effect of `slugify(text, separator="_")` from python-slugify on
ASCII input: lowercase, collapse every maximal run of non-alphanumeric
characters to a single separator, strip leading/trailing separators. -/
def slugifyL (s : List Char) : List Char :=
  joinWords '_' (splitWords (s.map toLowerChar))

/-- Decimal digit characters of `n`, most significant first, with
`fuel ≥ n` steps available; models Python's `str(n)` for `n ≥ 1`. -/
def natCharsAux : Nat → Nat → List Char
  | 0, _ => []
  | fuel + 1, n =>
    if n = 0 then []
    else natCharsAux fuel (n / 10) ++ [Char.ofNat (48 + n % 10)]

/-- Decimal rendering of a natural number, as produced by Python's
f-string formatting of the 1-based short-name occurrence counter. -/
def natChars (n : Nat) : List Char :=
  if n = 0 then ['0'] else natCharsAux n n

/-- Value of a decimal digit string (left inverse of `natChars`). -/
def decVal (l : List Char) : Nat :=
  l.foldl (fun a c => 10 * a + (c.toNat - 48)) 0

/-- One `<title>` element of an anime entry: its `type` attribute, its
`xml:lang` attribute and its text content.  A missing attribute reads
as the empty string, as with `getAttribute` on minidom elements. -/
structure TitleVariant where
  type : List Char
  lang : List Char
  text : List Char
deriving DecidableEq, Repr

/-- The `type` attribute values the program compares against. -/
def mainT : List Char := ['m', 'a', 'i', 'n']

def officialT : List Char := ['o', 'f', 'f', 'i', 'c', 'i', 'a', 'l']

def shortT : List Char := ['s', 'h', 'o', 'r', 't']

/-- The two fixed keys of every document built by the loop body. -/
def animeIdKey : List Char := ['a', 'n', 'i', 'm', 'e', '_', 'i', 'd']

def mainKey : List Char := ['m', 'a', 'i', 'n']

/-- A value stored in the document dict: the integer id or a title
string. -/
inductive DocVal where
  | intVal (n : Int)
  | strVal (s : List Char)
deriving DecidableEq, Repr

/-- A document, as the Python dict `data`: an association list whose
keys are unique and kept in insertion order. -/
abbrev Doc := List (List Char × DocVal)

/-- Python dict lookup `d[k]` (as an `Option`). -/
def lookupD (k : List Char) : Doc → Option DocVal
  | [] => none
  | (k', v) :: d => if k' = k then some v else lookupD k d

/-- Python dict assignment `d[k] = v`: updates the value in place when
the key is present, otherwise appends the pair at the end. -/
def dictInsert (k : List Char) (v : DocVal) : Doc → Doc
  | [] => [(k, v)]
  | (k', v') :: d => if k' = k then (k, v) :: d else (k', v') :: dictInsert k v d

/-- Key built by `slugify(f"official_{language}", separator="_")`. -/
def officialKey (lang : List Char) : List Char :=
  slugifyL (officialT ++ '_' :: lang)

/-- Key built by
`slugify(f"short_{language}_{short_name_index}", separator="_")`. -/
def shortKey (lang : List Char) (i : Nat) : List Char :=
  slugifyL (shortT ++ '_' :: (lang ++ '_' :: natChars i))

/-- The `short_names_list` collected for one official language: texts
of all titles with `type == "short"` and the exact same `xml:lang`,
in source order. -/
def shortsOf (titles : List TitleVariant) (lang : List Char) : List (List Char) :=
  (titles.filter fun t => decide (t.type = shortT ∧ t.lang = lang)).map (·.text)

/-- Inserts `short_<lang>_<i>` fields for the given texts, numbering
from `start` (the program starts at 1 via `enumerate(..., start=1)`). -/
def insertNumbered (lang : List Char) : Nat → List (List Char) → Doc → Doc
  | _, [], d => d
  | start, w :: ws, d =>
    insertNumbered lang (start + 1) ws (dictInsert (shortKey lang start) (DocVal.strVal w) d)

/-- Body of the `for official in officials` loop: stores the official
title under its slug key, then scans the full title list for matching
short names and stores them under numbered slug keys. -/
def processOfficial (titles : List TitleVariant) (d : Doc) (o : TitleVariant) : Doc :=
  insertNumbered o.lang 1 (shortsOf titles o.lang)
    (dictInsert (officialKey o.lang) (DocVal.strVal o.text) d)

/-- Errors the run can terminate with. -/
inductive RunError where
  | sourceNotFound
  | emptyCatalog
  | missingMainTitle
deriving DecidableEq, Repr

/-- Normalization of one entry (the loop body of `parse_and_index`,
lines 104-148): requires a `main`-typed title (`next` raises when no
such title exists, aborting the run), then builds the dict with keys
`anime_id`, `main`, and one slug key per official / matched short. -/
def normalize (id : Int) (titles : List TitleVariant) : Except RunError Doc :=
  match titles.find? (fun t => decide (t.type = mainT)) with
  | none => Except.error RunError.missingMainTitle
  | some m =>
    Except.ok
      ((titles.filter fun t => decide (t.type = officialT)).foldl (processOfficial titles)
        [(animeIdKey, DocVal.intVal id), (mainKey, DocVal.strVal m.text)])

/-- One anime entry: the `aid` attribute (parsed with `int(...)`) and
its ordered title list. -/
structure Entry where
  aid : Int
  titles : List TitleVariant
deriving DecidableEq, Repr

/-- An entry has the main title the normalizer requires. -/
def HasMain (e : Entry) : Prop :=
  ∃ t ∈ e.titles, t.type = mainT

instance (e : Entry) : Decidable (HasMain e) := by
  unfold HasMain; infer_instance

/-- The document an entry normalizes to (meaningful under `HasMain`). -/
def normDoc (e : Entry) : Doc :=
  match normalize e.aid e.titles with
  | Except.ok d => d
  | Except.error _ => []

/-- Observable calls made against the MeiliSearch index. -/
inductive SinkEvent where
  | deleteAll
  | addDocs (batch : List Doc)
deriving DecidableEq

/-- The entry loop of `parse_and_index`: accumulates normalized
documents in `data_queue`, hands the queue to the sink whenever the
1-based entry index is divisible by 500, and always hands the
remaining queue (possibly empty) to the sink after the last entry.
A missing main title aborts the loop immediately; batches already
submitted stay submitted and nothing further is sent. -/
def ingestLoop : List Entry → Nat → List Doc → List (List Doc) →
    List (List Doc) × Option RunError
  | [], _, queue, batches => (batches ++ [queue], none)
  | e :: rest, idx, queue, batches =>
    match normalize e.aid e.titles with
    | Except.error _ => (batches, some RunError.missingMainTitle)
    | Except.ok d =>
      if (idx + 1) % 500 = 0 then ingestLoop rest (idx + 1) [] (batches ++ [queue ++ [d]])
      else ingestLoop rest (idx + 1) (queue ++ [d]) batches

/-- The driver sequence of `main`: after the health check,
`get_or_create_index` clears all documents of the target index, and
only then does `parse_and_index` try to open `anime-titles.xml`
(`none` models the absent file).  An empty catalog aborts after the
clear; otherwise the entry loop runs. -/
def driverRun (source : Option (List Entry)) : List SinkEvent × Option RunError :=
  match source with
  | none => ([SinkEvent.deleteAll], some RunError.sourceNotFound)
  | some entries =>
    if entries.length = 0 then ([SinkEvent.deleteAll], some RunError.emptyCatalog)
    else
      let r := ingestLoop entries 0 [] []
      (SinkEvent.deleteAll :: r.1.map SinkEvent.addDocs, r.2)

/-- The batch accumulator in isolation, abstracted over the document
type: the same queue logic as `ingestLoop`, on an already-normalized
stream. -/
def batchLoop {α : Type} : List α → Nat → List α → List (List α) → List (List α)
  | [], _, queue, batches => batches ++ [queue]
  | d :: rest, idx, queue, batches =>
    if (idx + 1) % 500 = 0 then batchLoop rest (idx + 1) [] (batches ++ [queue ++ [d]])
    else batchLoop rest (idx + 1) (queue ++ [d]) batches

/-- All batches handed to the sink for a fully processed stream. -/
def batchRun {α : Type} (docs : List α) : List (List α) :=
  batchLoop docs 0 [] []

/-- A word of the slug alphabet: nonempty, all lowercase alphanumeric. -/
def GoodWord (w : List Char) : Prop :=
  w ≠ [] ∧ ∀ c ∈ w, isAlnumLower c = true

/-- A well-formed language tag: nonempty lowercase alphanumeric words
joined by single hyphens (no leading, trailing or doubled hyphens). -/
def GoodLang (l : List Char) : Prop :=
  ∃ ws, ws ≠ [] ∧ (∀ w ∈ ws, GoodWord w) ∧ l = joinWords '-' ws

/-- `JoinedSep ws s` states that `s` consists of the words `ws` joined
by single separator (non-word) characters, possibly different ones. -/
inductive JoinedSep : List (List Char) → List Char → Prop where
  | single (w : List Char) : JoinedSep [w] w
  | more (w : List Char) (d : Char) (ws : List (List Char)) (s : List Char) :
      isAlnumLower d = false → JoinedSep ws s → JoinedSep (w :: ws) (w ++ d :: s)

theorem splitWordsAux_allword (w : List Char) (hw : ∀ c ∈ w, isAlnumLower c = true) :
    ∀ acc : List Char, acc ≠ [] ∨ w ≠ [] → splitWordsAux w acc = [acc.reverse ++ w] := by
  induction w with
  | nil =>
    intro acc h
    have hacc : acc ≠ [] := h.resolve_right (by simp)
    simp [splitWordsAux, hacc]
  | cons c cs ih =>
    intro acc _
    have hc : isAlnumLower c = true := hw c (by simp)
    have hcs : ∀ c' ∈ cs, isAlnumLower c' = true := fun c' h' => hw c' (by simp [h'])
    simp only [splitWordsAux, hc, if_pos]
    rw [ih hcs (c :: acc) (Or.inl (by simp))]
    simp

theorem splitWordsAux_word_sep (w : List Char) (hw : ∀ c ∈ w, isAlnumLower c = true)
    (d : Char) (hd : isAlnumLower d = false) (s : List Char) :
    ∀ acc : List Char, acc ≠ [] ∨ w ≠ [] →
      splitWordsAux (w ++ d :: s) acc = (acc.reverse ++ w) :: splitWordsAux s [] := by
  induction w with
  | nil =>
    intro acc h
    have hacc : acc ≠ [] := h.resolve_right (by simp)
    simp [splitWordsAux, hd, hacc]
  | cons c cs ih =>
    intro acc _
    have hc : isAlnumLower c = true := hw c (by simp)
    have hcs : ∀ c' ∈ cs, isAlnumLower c' = true := fun c' h' => hw c' (by simp [h'])
    simp only [List.cons_append, splitWordsAux, hc, if_pos, List.append_eq]
    rw [ih hcs (c :: acc) (Or.inl (by simp))]
    simp

theorem splitWords_joined {ws : List (List Char)} {s : List Char} (h : JoinedSep ws s) :
    (∀ w ∈ ws, GoodWord w) → splitWords s = ws := by
  induction h with
  | single w =>
    intro hw
    have hg := hw w (by simp)
    unfold splitWords
    rw [splitWordsAux_allword w hg.2 [] (Or.inr hg.1)]
    simp
  | more w d ws s hd hj ih =>
    intro hw
    have hg := hw w (by simp)
    unfold splitWords
    rw [splitWordsAux_word_sep w hg.2 d hd s [] (Or.inr hg.1)]
    have : splitWordsAux s [] = splitWords s := rfl
    rw [this, ih (fun w' h' => hw w' (by simp [h']))]
    simp

theorem joinedSep_joinWords (sep : Char) (hsep : isAlnumLower sep = false) :
    ∀ ws : List (List Char), ws ≠ [] → JoinedSep ws (joinWords sep ws) := by
  intro ws
  induction ws with
  | nil => simp
  | cons w ws ih =>
    intro _
    cases ws with
    | nil => exact JoinedSep.single w
    | cons w' ws' =>
      exact JoinedSep.more w sep (w' :: ws') (joinWords sep (w' :: ws')) hsep (ih (by simp))

theorem joinWords_inj {ws1 ws2 : List (List Char)} (h1 : ws1 ≠ []) (h2 : ws2 ≠ [])
    (hw1 : ∀ w ∈ ws1, GoodWord w) (hw2 : ∀ w ∈ ws2, GoodWord w)
    (h : joinWords '_' ws1 = joinWords '_' ws2) : ws1 = ws2 := by
  have e1 := splitWords_joined (joinedSep_joinWords '_' (by decide) ws1 h1) hw1
  have e2 := splitWords_joined (joinedSep_joinWords '_' (by decide) ws2 h2) hw2
  rw [← e1, ← e2, h]

theorem joinedSep_snoc {ws : List (List Char)} {s : List Char} (h : JoinedSep ws s)
    (d : Char) (hd : isAlnumLower d = false) (w : List Char) :
    JoinedSep (ws ++ [w]) (s ++ d :: w) := by
  induction h with
  | single w0 => exact JoinedSep.more w0 d [w] w hd (JoinedSep.single w)
  | more w0 d0 ws0 s0 hd0 hj ih =>
    have e : (w0 ++ d0 :: s0) ++ d :: w = w0 ++ d0 :: (s0 ++ d :: w) := by simp
    rw [show (w0 :: ws0) ++ [w] = w0 :: (ws0 ++ [w]) from rfl, e]
    exact JoinedSep.more w0 d0 (ws0 ++ [w]) (s0 ++ d :: w) hd0 ih

theorem mem_joinWords {c sep : Char} :
    ∀ {ws : List (List Char)}, c ∈ joinWords sep ws → c = sep ∨ ∃ w ∈ ws, c ∈ w := by
  intro ws
  induction ws with
  | nil => simp [joinWords]
  | cons w ws ih =>
    intro h
    cases ws with
    | nil => exact Or.inr ⟨w, by simp, h⟩
    | cons w' ws' =>
      rw [show joinWords sep (w :: w' :: ws') = w ++ sep :: joinWords sep (w' :: ws') from rfl]
        at h
      rcases List.mem_append.mp h with h | h
      · exact Or.inr ⟨w, by simp, h⟩
      · rcases List.mem_cons.mp h with h | h
        · exact Or.inl h
        · rcases ih h with h | ⟨w0, hw0, hc⟩
          · exact Or.inl h
          · exact Or.inr ⟨w0, by simp [List.mem_cons.mpr (Or.inr hw0)], hc⟩

theorem map_id_of_fix {f : Char → Char} :
    ∀ l : List Char, (∀ c ∈ l, f c = c) → l.map f = l := by
  intro l h
  induction l with
  | nil => rfl
  | cons c cs ih =>
    simp only [List.map_cons, h c (by simp), ih (fun c' h' => h c' (by simp [h']))]

theorem isAlnumLower_toLower_fix {c : Char} (h : isAlnumLower c = true) : toLowerChar c = c := by
  simp only [isAlnumLower, Bool.or_eq_true, Bool.and_eq_true, decide_eq_true_eq] at h
  rw [toLowerChar, if_neg]
  omega

theorem goodLang_fix {ws : List (List Char)} (hws : ∀ w ∈ ws, GoodWord w) :
    ∀ c ∈ joinWords '-' ws, toLowerChar c = c := by
  intro c hc
  rcases mem_joinWords hc with h | ⟨w, hw, hcw⟩
  · rw [h]; decide
  · exact isAlnumLower_toLower_fix ((hws w hw).2 c hcw)

theorem digit_char_alnum : ∀ k < 10, isAlnumLower (Char.ofNat (48 + k)) = true := by decide

theorem digit_char_toNat : ∀ k < 10, (Char.ofNat (48 + k)).toNat = 48 + k := by decide

theorem natCharsAux_alnum :
    ∀ fuel n, ∀ c ∈ natCharsAux fuel n, isAlnumLower c = true := by
  intro fuel
  induction fuel with
  | zero => simp [natCharsAux]
  | succ fuel ih =>
    intro n c hc
    by_cases h0 : n = 0
    · simp [natCharsAux, h0] at hc
    · simp only [natCharsAux, h0, if_neg, List.mem_append, List.mem_singleton,
        ite_false] at hc
      rcases hc with h | h
      · exact ih _ c h
      · rw [h]; exact digit_char_alnum _ (Nat.mod_lt _ (by omega))

theorem natCharsAux_ne_nil (fuel n : Nat) (h0 : n ≠ 0) (hf : fuel ≠ 0) :
    natCharsAux fuel n ≠ [] := by
  cases fuel with
  | zero => exact absurd rfl hf
  | succ fuel => simp [natCharsAux, h0]

theorem goodWord_natChars (n : Nat) : GoodWord (natChars n) := by
  unfold natChars
  by_cases h : n = 0
  · simp only [h, if_pos]
    exact ⟨by simp, by decide⟩
  · simp only [h, if_neg, ite_false]
    exact ⟨natCharsAux_ne_nil n n h (by omega), fun c hc => natCharsAux_alnum n n c hc⟩

theorem decVal_append_digit (l : List Char) (c : Char) :
    decVal (l ++ [c]) = 10 * decVal l + (c.toNat - 48) := by
  unfold decVal
  rw [List.foldl_append]
  rfl

theorem decVal_natCharsAux : ∀ fuel n, n ≤ fuel → decVal (natCharsAux fuel n) = n := by
  intro fuel
  induction fuel with
  | zero =>
    intro n hn
    have : n = 0 := by omega
    simp [this, natCharsAux, decVal]
  | succ fuel ih =>
    intro n hn
    by_cases h0 : n = 0
    · simp [natCharsAux, h0, decVal]
    · simp only [natCharsAux, h0, ite_false]
      rw [decVal_append_digit]
      have hdiv : n / 10 ≤ fuel := by omega
      rw [ih _ hdiv]
      have hd := digit_char_toNat (n % 10) (Nat.mod_lt _ (by omega))
      omega

theorem decVal_natChars (n : Nat) : decVal (natChars n) = n := by
  unfold natChars
  by_cases h : n = 0
  · simp only [h, if_pos]; decide
  · simp only [h, ite_false]
    exact decVal_natCharsAux n n le_rfl

theorem natChars_inj {m n : Nat} (h : natChars m = natChars n) : m = n := by
  have hm := decVal_natChars m
  have hn := decVal_natChars n
  rw [← hm, ← hn, h]

theorem officialT_fix : ∀ c ∈ officialT, toLowerChar c = c := by decide

theorem shortT_fix : ∀ c ∈ shortT, toLowerChar c = c := by decide

theorem goodWord_officialT : GoodWord officialT := by
  constructor
  · simp [officialT]
  · decide

theorem goodWord_shortT : GoodWord shortT := by
  constructor
  · simp [shortT]
  · decide

theorem officialKey_eq_join (ws : List (List Char)) (hne : ws ≠ [])
    (hws : ∀ w ∈ ws, GoodWord w) :
    officialKey (joinWords '-' ws) = joinWords '_' (officialT :: ws) := by
  unfold officialKey slugifyL
  have hfix : ∀ c ∈ officialT ++ '_' :: joinWords '-' ws, toLowerChar c = c := by
    intro c hc
    rcases List.mem_append.mp hc with h | h
    · exact officialT_fix c h
    · rcases List.mem_cons.mp h with h | h
      · rw [h]; decide
      · exact goodLang_fix hws c h
  rw [map_id_of_fix _ hfix]
  have hjs : JoinedSep (officialT :: ws) (officialT ++ '_' :: joinWords '-' ws) :=
    JoinedSep.more officialT '_' ws (joinWords '-' ws) (by decide)
      (joinedSep_joinWords '-' (by decide) ws hne)
  rw [splitWords_joined hjs]
  intro w hw
  rcases List.mem_cons.mp hw with h | h
  · rw [h]; exact goodWord_officialT
  · exact hws w h

theorem shortKey_eq_join (ws : List (List Char)) (hne : ws ≠ [])
    (hws : ∀ w ∈ ws, GoodWord w) (i : Nat) :
    shortKey (joinWords '-' ws) i = joinWords '_' (shortT :: (ws ++ [natChars i])) := by
  unfold shortKey slugifyL
  have hfix : ∀ c ∈ shortT ++ '_' :: (joinWords '-' ws ++ '_' :: natChars i),
      toLowerChar c = c := by
    intro c hc
    rcases List.mem_append.mp hc with h | h
    · exact shortT_fix c h
    · rcases List.mem_cons.mp h with h | h
      · rw [h]; decide
      · rcases List.mem_append.mp h with h | h
        · exact goodLang_fix hws c h
        · rcases List.mem_cons.mp h with h | h
          · rw [h]; decide
          · exact isAlnumLower_toLower_fix ((goodWord_natChars i).2 c h)
  rw [map_id_of_fix _ hfix]
  have hjs : JoinedSep (shortT :: (ws ++ [natChars i]))
      (shortT ++ '_' :: (joinWords '-' ws ++ '_' :: natChars i)) :=
    JoinedSep.more shortT '_' (ws ++ [natChars i]) (joinWords '-' ws ++ '_' :: natChars i)
      (by decide)
      (joinedSep_snoc (joinedSep_joinWords '-' (by decide) ws hne) '_' (by decide) (natChars i))
  rw [splitWords_joined hjs]
  intro w hw
  rcases List.mem_cons.mp hw with h | h
  · rw [h]; exact goodWord_shortT
  · rcases List.mem_append.mp h with h | h
    · exact hws w h
    · rw [List.mem_singleton.mp h]; exact goodWord_natChars i

theorem goodWord_cons {ws : List (List Char)} {w : List Char} (hw : GoodWord w)
    (hws : ∀ x ∈ ws, GoodWord x) : ∀ x ∈ w :: ws, GoodWord x := by
  intro x hx
  rcases List.mem_cons.mp hx with h | h
  · rw [h]; exact hw
  · exact hws x h

theorem goodWord_append_digits {ws : List (List Char)} (hws : ∀ x ∈ ws, GoodWord x)
    (i : Nat) : ∀ x ∈ ws ++ [natChars i], GoodWord x := by
  intro x hx
  rcases List.mem_append.mp hx with h | h
  · exact hws x h
  · rw [List.mem_singleton.mp h]; exact goodWord_natChars i

theorem officialKey_inj {l1 l2 : List Char} (h1 : GoodLang l1) (h2 : GoodLang l2)
    (h : officialKey l1 = officialKey l2) : l1 = l2 := by
  obtain ⟨ws1, hne1, hws1, rfl⟩ := h1
  obtain ⟨ws2, hne2, hws2, rfl⟩ := h2
  rw [officialKey_eq_join ws1 hne1 hws1, officialKey_eq_join ws2 hne2 hws2] at h
  have := joinWords_inj (by simp) (by simp)
    (goodWord_cons goodWord_officialT hws1) (goodWord_cons goodWord_officialT hws2) h
  rw [List.cons.injEq] at this
  rw [this.2]

theorem shortKey_inj {l1 l2 : List Char} {i1 i2 : Nat} (h1 : GoodLang l1) (h2 : GoodLang l2)
    (h : shortKey l1 i1 = shortKey l2 i2) : l1 = l2 ∧ i1 = i2 := by
  obtain ⟨ws1, hne1, hws1, rfl⟩ := h1
  obtain ⟨ws2, hne2, hws2, rfl⟩ := h2
  rw [shortKey_eq_join ws1 hne1 hws1, shortKey_eq_join ws2 hne2 hws2] at h
  have hj := joinWords_inj (by simp) (by simp)
    (goodWord_cons goodWord_shortT (goodWord_append_digits hws1 i1))
    (goodWord_cons goodWord_shortT (goodWord_append_digits hws2 i2)) h
  rw [List.cons.injEq] at hj
  have happ := hj.2
  have hrev := congrArg List.reverse happ
  simp only [List.reverse_append, List.reverse_cons, List.reverse_nil, List.nil_append,
    List.singleton_append, List.cons.injEq] at hrev
  refine ⟨?_, natChars_inj hrev.1⟩
  have : ws1 = ws2 := by
    have := congrArg List.reverse hrev.2
    simpa using this
  rw [this]

theorem splitWordsAux_head (cs : List Char) :
    ∀ acc : List Char, acc ≠ [] →
      ∃ w ws, splitWordsAux cs acc = (acc.reverse ++ w) :: ws := by
  induction cs with
  | nil =>
    intro acc h
    exact ⟨[], [], by simp [splitWordsAux, h]⟩
  | cons c cs ih =>
    intro acc h
    by_cases hc : isAlnumLower c
    · obtain ⟨w, ws, hw⟩ := ih (c :: acc) (by simp)
      refine ⟨c :: w, ws, ?_⟩
      simp only [splitWordsAux, hc, if_pos, hw]
      simp
    · refine ⟨[], splitWordsAux cs [], ?_⟩
      simp [splitWordsAux, hc, h]

theorem slugifyL_head {c : Char} (s : List Char) (hc : isAlnumLower (toLowerChar c) = true) :
    ∃ r, slugifyL (c :: s) = toLowerChar c :: r := by
  unfold slugifyL splitWords
  simp only [List.map_cons, splitWordsAux, hc, if_pos]
  obtain ⟨w, ws, hw⟩ := splitWordsAux_head (s.map toLowerChar) [toLowerChar c] (by simp)
  rw [hw]
  cases ws with
  | nil => exact ⟨w, by simp [joinWords]⟩
  | cons w' ws' =>
    refine ⟨w ++ '_' :: joinWords '_' (w' :: ws'), ?_⟩
    simp [joinWords]

theorem officialKey_head (l : List Char) : ∃ r, officialKey l = 'o' :: r := by
  unfold officialKey
  have : officialT ++ '_' :: l = 'o' :: (['f', 'f', 'i', 'c', 'i', 'a', 'l'] ++ '_' :: l) := rfl
  rw [this]
  have h := slugifyL_head (c := 'o') (['f', 'f', 'i', 'c', 'i', 'a', 'l'] ++ '_' :: l) (by decide)
  simpa using h

theorem shortKey_head (l : List Char) (i : Nat) : ∃ r, shortKey l i = 's' :: r := by
  unfold shortKey
  have : shortT ++ '_' :: (l ++ '_' :: natChars i) =
      's' :: (['h', 'o', 'r', 't'] ++ '_' :: (l ++ '_' :: natChars i)) := rfl
  rw [this]
  have h := slugifyL_head (c := 's') (['h', 'o', 'r', 't'] ++ '_' :: (l ++ '_' :: natChars i))
    (by decide)
  simpa using h

theorem officialKey_ne_animeId (l : List Char) : officialKey l ≠ animeIdKey := by
  obtain ⟨r, hr⟩ := officialKey_head l
  rw [hr]
  intro h
  rw [animeIdKey, List.cons.injEq] at h
  exact absurd h.1 (by decide)

theorem officialKey_ne_mainKey (l : List Char) : officialKey l ≠ mainKey := by
  obtain ⟨r, hr⟩ := officialKey_head l
  rw [hr]
  intro h
  rw [mainKey, List.cons.injEq] at h
  exact absurd h.1 (by decide)

theorem shortKey_ne_animeId (l : List Char) (i : Nat) : shortKey l i ≠ animeIdKey := by
  obtain ⟨r, hr⟩ := shortKey_head l i
  rw [hr]
  intro h
  rw [animeIdKey, List.cons.injEq] at h
  exact absurd h.1 (by decide)

theorem shortKey_ne_mainKey (l : List Char) (i : Nat) : shortKey l i ≠ mainKey := by
  obtain ⟨r, hr⟩ := shortKey_head l i
  rw [hr]
  intro h
  rw [mainKey, List.cons.injEq] at h
  exact absurd h.1 (by decide)

theorem officialKey_ne_shortKey (l1 l2 : List Char) (i : Nat) :
    officialKey l1 ≠ shortKey l2 i := by
  obtain ⟨r1, hr1⟩ := officialKey_head l1
  obtain ⟨r2, hr2⟩ := shortKey_head l2 i
  rw [hr1, hr2]
  intro h
  rw [List.cons.injEq] at h
  exact absurd h.1 (by decide)

theorem lookupD_dictInsert_self (k : List Char) (v : DocVal) (d : Doc) :
    lookupD k (dictInsert k v d) = some v := by
  induction d with
  | nil => simp [dictInsert, lookupD]
  | cons p d ih =>
    obtain ⟨k', v'⟩ := p
    by_cases h : k' = k
    · simp [dictInsert, h, lookupD]
    · simp [dictInsert, h, lookupD, ih]

theorem lookupD_dictInsert_ne {k k' : List Char} (h : k' ≠ k) (v : DocVal) (d : Doc) :
    lookupD k (dictInsert k' v d) = lookupD k d := by
  induction d with
  | nil => simp [dictInsert, lookupD, h]
  | cons p d ih =>
    obtain ⟨k0, v0⟩ := p
    by_cases h0 : k0 = k'
    · simp [dictInsert, h0, lookupD, h]
    · simp only [dictInsert, h0, ite_false, lookupD]
      by_cases hk : k0 = k
      · simp [hk]
      · simp [hk, ih]

theorem dictInsert_of_lookup_eq {k : List Char} {v : DocVal} :
    ∀ {d : Doc}, lookupD k d = some v → dictInsert k v d = d := by
  intro d
  induction d with
  | nil => intro h; simp [lookupD] at h
  | cons p d ih =>
    obtain ⟨k0, v0⟩ := p
    intro h
    by_cases h0 : k0 = k
    · rw [lookupD, if_pos h0] at h
      rw [dictInsert, if_pos h0, h0]
      injection h with h
      rw [h]
    · rw [lookupD, if_neg h0] at h
      rw [dictInsert, if_neg h0, ih h]

theorem dictInsert_cons_ne {k k0 : List Char} (h : k0 ≠ k) (v : DocVal)
    (v0 : DocVal) (d : Doc) :
    dictInsert k v ((k0, v0) :: d) = (k0, v0) :: dictInsert k v d := by
  rw [dictInsert, if_neg h]

theorem lookupD_cons_ne {k k0 : List Char} (h : k0 ≠ k) (v0 : DocVal) (d : Doc) :
    lookupD k ((k0, v0) :: d) = lookupD k d := by
  rw [lookupD, if_neg h]

theorem mem_keys_dictInsert {k k0 : List Char} {v : DocVal} :
    ∀ {d : Doc}, k ∈ (dictInsert k0 v d).map Prod.fst → k = k0 ∨ k ∈ d.map Prod.fst := by
  intro d
  induction d with
  | nil =>
    intro h
    rw [dictInsert] at h
    simp only [List.map_cons, List.map_nil, List.mem_singleton] at h
    exact Or.inl h
  | cons p d ih =>
    obtain ⟨k', v'⟩ := p
    intro h
    by_cases h0 : k' = k0
    · rw [dictInsert, if_pos h0] at h
      simp only [List.map_cons, List.mem_cons] at h
      rcases h with h | h
      · exact Or.inl h
      · exact Or.inr (List.mem_cons.mpr (Or.inr h))
    · rw [dictInsert, if_neg h0] at h
      simp only [List.map_cons, List.mem_cons] at h
      rcases h with h | h
      · exact Or.inr (List.mem_cons.mpr (Or.inl h))
      · rcases ih h with h | h
        · exact Or.inl h
        · exact Or.inr (List.mem_cons.mpr (Or.inr h))

theorem lookupD_insertNumbered_ge {lang : List Char} {k : List Char} :
    ∀ (start : Nat) (ws : List (List Char)) (d : Doc),
      (∀ n, start ≤ n → shortKey lang n ≠ k) →
      lookupD k (insertNumbered lang start ws d) = lookupD k d := by
  intro start ws
  induction ws generalizing start with
  | nil => intro d _; rfl
  | cons w ws ih =>
    intro d h
    show lookupD k (insertNumbered lang (start + 1) ws
      (dictInsert (shortKey lang start) (DocVal.strVal w) d)) = lookupD k d
    rw [ih (start + 1) _ (fun n hn => h n (by omega))]
    exact lookupD_dictInsert_ne (h start le_rfl) _ _

theorem lookupD_insertNumbered_get {lang : List Char} (hL : GoodLang lang) :
    ∀ (start : Nat) (ws : List (List Char)) (d : Doc) (j : Nat), j < ws.length →
      lookupD (shortKey lang (start + j)) (insertNumbered lang start ws d) =
        some (DocVal.strVal (ws.getD j [])) := by
  intro start ws
  induction ws generalizing start with
  | nil => intro d j hj; simp at hj
  | cons w ws ih =>
    intro d j hj
    cases j with
    | zero =>
      show lookupD (shortKey lang (start + 0)) (insertNumbered lang (start + 1) ws
        (dictInsert (shortKey lang start) (DocVal.strVal w) d)) = _
      rw [Nat.add_zero]
      rw [lookupD_insertNumbered_ge (start + 1) ws _ (fun n hn hk => by
        have := (shortKey_inj hL hL hk).2
        omega)]
      rw [lookupD_dictInsert_self]
      rfl
    | succ j =>
      show lookupD (shortKey lang (start + (j + 1))) (insertNumbered lang (start + 1) ws
        (dictInsert (shortKey lang start) (DocVal.strVal w) d)) = _
      rw [show start + (j + 1) = (start + 1) + j from by omega]
      rw [ih (start + 1) _ j (by simpa using hj)]
      rfl

theorem insertNumbered_absorb {lang : List Char} :
    ∀ (start : Nat) (ws : List (List Char)) (d : Doc),
      (∀ j, j < ws.length →
        lookupD (shortKey lang (start + j)) d = some (DocVal.strVal (ws.getD j []))) →
      insertNumbered lang start ws d = d := by
  intro start ws
  induction ws generalizing start with
  | nil => intro d _; rfl
  | cons w ws ih =>
    intro d h
    have h0 : lookupD (shortKey lang start) d = some (DocVal.strVal w) := by
      have := h 0 (by simp)
      rw [Nat.add_zero] at this
      exact this
    show insertNumbered lang (start + 1) ws
      (dictInsert (shortKey lang start) (DocVal.strVal w) d) = d
    rw [dictInsert_of_lookup_eq h0]
    refine ih (start + 1) d (fun j hj => ?_)
    have := h (j + 1) (by simpa using hj)
    rw [show start + (j + 1) = (start + 1) + j from by omega] at this
    exact this

theorem insertNumbered_cons {lang k0 : List Char} {v0 : DocVal}
    (h : ∀ n, shortKey lang n ≠ k0) :
    ∀ (start : Nat) (ws : List (List Char)) (d : Doc),
      insertNumbered lang start ws ((k0, v0) :: d) =
        (k0, v0) :: insertNumbered lang start ws d := by
  intro start ws
  induction ws generalizing start with
  | nil => intro d; rfl
  | cons w ws ih =>
    intro d
    show insertNumbered lang (start + 1) ws
      (dictInsert (shortKey lang start) (DocVal.strVal w) ((k0, v0) :: d)) = _
    rw [dictInsert_cons_ne (fun e => h start e.symm) _ _ _, ih (start + 1)]
    rfl

theorem mem_keys_insertNumbered {lang k : List Char} :
    ∀ (start : Nat) (ws : List (List Char)) (d : Doc),
      k ∈ (insertNumbered lang start ws d).map Prod.fst →
      (∃ n, k = shortKey lang n) ∨ k ∈ d.map Prod.fst := by
  intro start ws
  induction ws generalizing start with
  | nil => intro d h; exact Or.inr h
  | cons w ws ih =>
    intro d h
    rcases ih (start + 1) _ h with h | h
    · exact Or.inl h
    · rcases mem_keys_dictInsert h with h | h
      · exact Or.inl ⟨start, h⟩
      · exact Or.inr h

theorem lookupD_processOfficial_ne {ts : List TitleVariant} {o : TitleVariant}
    {k : List Char} (ho : officialKey o.lang ≠ k) (hs : ∀ n, shortKey o.lang n ≠ k)
    (d : Doc) : lookupD k (processOfficial ts d o) = lookupD k d := by
  unfold processOfficial
  rw [lookupD_insertNumbered_ge 1 _ _ (fun n _ => hs n), lookupD_dictInsert_ne ho]

theorem processOfficial_cons {ts : List TitleVariant} {o : TitleVariant}
    {k0 : List Char} {v0 : DocVal} (ho : officialKey o.lang ≠ k0)
    (hs : ∀ n, shortKey o.lang n ≠ k0) (d : Doc) :
    processOfficial ts ((k0, v0) :: d) o = (k0, v0) :: processOfficial ts d o := by
  unfold processOfficial
  rw [dictInsert_cons_ne (fun e => ho e.symm), insertNumbered_cons hs]

theorem lookupD_foldl_ne {ts : List TitleVariant} {k : List Char} :
    ∀ (os : List TitleVariant) (d : Doc),
      (∀ o ∈ os, officialKey o.lang ≠ k ∧ ∀ n, shortKey o.lang n ≠ k) →
      lookupD k (os.foldl (processOfficial ts) d) = lookupD k d := by
  intro os
  induction os with
  | nil => intro d _; rfl
  | cons o os ih =>
    intro d h
    have ho := h o (by simp)
    rw [List.foldl_cons, ih _ (fun o' h' => h o' (by simp [h'])),
      lookupD_processOfficial_ne ho.1 ho.2]

theorem foldl_cons_keep {ts : List TitleVariant} {k0 : List Char} {v0 : DocVal} :
    ∀ (os : List TitleVariant) (d : Doc),
      (∀ o ∈ os, officialKey o.lang ≠ k0 ∧ ∀ n, shortKey o.lang n ≠ k0) →
      os.foldl (processOfficial ts) ((k0, v0) :: d) =
        (k0, v0) :: os.foldl (processOfficial ts) d := by
  intro os
  induction os with
  | nil => intro d _; rfl
  | cons o os ih =>
    intro d h
    have ho := h o (by simp)
    rw [List.foldl_cons, processOfficial_cons ho.1 ho.2,
      ih _ (fun o' h' => h o' (by simp [h'])), List.foldl_cons]

theorem lookupD_foldl_officialKey {ts : List TitleVariant} {L : List Char}
    (hL : GoodLang L) :
    ∀ (os : List TitleVariant) (d : Doc) (o' : TitleVariant),
      (∀ o ∈ os, GoodLang o.lang) →
      (os.filter fun o => decide (o.lang = L)).getLast? = some o' →
      lookupD (officialKey L) (os.foldl (processOfficial ts) d) =
        some (DocVal.strVal o'.text) := by
  intro os
  induction os with
  | nil => intro d o' _ hlast; simp at hlast
  | cons o os ih =>
    intro d o' hgood hlast
    by_cases ho : o.lang = L
    · rw [List.filter_cons_of_pos (by simp [ho])] at hlast
      cases hfo : (os.filter fun o => decide (o.lang = L)).getLast? with
      | some o2 =>
        have hne : (os.filter fun o => decide (o.lang = L)) ≠ [] := by
          intro e; rw [e] at hfo; simp at hfo
        have : o' = o2 := by
          cases hf : os.filter fun o => decide (o.lang = L) with
          | nil => exact absurd hf hne
          | cons a l =>
            rw [hf, List.getLast?_cons_cons] at hlast
            rw [hf] at hfo
            rw [hlast] at hfo
            injection hfo
        rw [List.foldl_cons]
        exact ih _ o' (fun x hx => hgood x (by simp [hx])) (this ▸ hfo)
      | none =>
        have hnil : (os.filter fun o => decide (o.lang = L)) = [] := by
          exact List.getLast?_eq_none_iff.mp hfo
        rw [hnil] at hlast
        have ho' : o' = o := by
          simp at hlast
          rw [hlast]
        rw [List.foldl_cons]
        have hnot : ∀ x ∈ os, officialKey x.lang ≠ officialKey L ∧
            ∀ n, shortKey x.lang n ≠ officialKey L := by
          intro x hx
          have hxL : x.lang ≠ L := by
            intro e
            have : x ∈ os.filter fun o => decide (o.lang = L) :=
              List.mem_filter.mpr ⟨hx, by simp [e]⟩
            rw [hnil] at this
            simp at this
          constructor
          · intro e
            exact hxL (officialKey_inj (hgood x (by simp [hx])) hL e)
          · intro n e
            exact officialKey_ne_shortKey L x.lang n e.symm
        rw [lookupD_foldl_ne os _ hnot]
        unfold processOfficial
        rw [ho, ho']
        rw [lookupD_insertNumbered_ge 1 _ _
          (fun n _ e => officialKey_ne_shortKey L L n e.symm)]
        exact lookupD_dictInsert_self _ _ _
    · rw [List.filter_cons_of_neg (by simp [ho])] at hlast
      rw [List.foldl_cons]
      have hko : officialKey o.lang ≠ officialKey L := by
        intro e
        exact ho (officialKey_inj (hgood o (by simp)) hL e)
      have hks : ∀ n, shortKey o.lang n ≠ officialKey L := by
        intro n e
        exact officialKey_ne_shortKey L o.lang n e.symm
      have := ih (processOfficial ts d o) o' (fun x hx => hgood x (by simp [hx])) hlast
      rw [this]

theorem lookupD_foldl_shortKey {ts : List TitleVariant} {L : List Char}
    (hL : GoodLang L) :
    ∀ (os : List TitleVariant) (d : Doc),
      (∀ o ∈ os, GoodLang o.lang) → (∃ o ∈ os, o.lang = L) →
      ∀ j, j < (shortsOf ts L).length →
        lookupD (shortKey L (1 + j)) (os.foldl (processOfficial ts) d) =
          some (DocVal.strVal ((shortsOf ts L).getD j [])) := by
  intro os
  induction os with
  | nil => intro d _ hex; simp at hex
  | cons o os ih =>
    intro d hgood hex j hj
    rw [List.foldl_cons]
    by_cases hex' : ∃ o' ∈ os, o'.lang = L
    · exact ih _ (fun x hx => hgood x (by simp [hx])) hex' j hj
    · have ho : o.lang = L := by
        rcases hex with ⟨x, hx, hxL⟩
        rcases List.mem_cons.mp hx with h | h
        · rw [← h]; exact hxL
        · exact absurd ⟨x, h, hxL⟩ hex'
      have hnot : ∀ x ∈ os, officialKey x.lang ≠ shortKey L (1 + j) ∧
          ∀ n, shortKey x.lang n ≠ shortKey L (1 + j) := by
        intro x hx
        have hxL : x.lang ≠ L := fun e => hex' ⟨x, hx, e⟩
        constructor
        · exact officialKey_ne_shortKey x.lang L (1 + j)
        · intro n e
          exact hxL (shortKey_inj (hgood x (by simp [hx])) hL e).1
      rw [lookupD_foldl_ne os _ hnot]
      unfold processOfficial
      rw [ho]
      exact lookupD_insertNumbered_get hL 1 _ _ j hj

theorem keys_foldl_subset {ts : List TitleVariant} {k : List Char} :
    ∀ (os : List TitleVariant) (d : Doc),
      k ∈ (os.foldl (processOfficial ts) d).map Prod.fst →
      k ∈ d.map Prod.fst ∨
        ∃ o ∈ os, k = officialKey o.lang ∨ ∃ n, k = shortKey o.lang n := by
  intro os
  induction os with
  | nil => intro d h; exact Or.inl h
  | cons o os ih =>
    intro d h
    rw [List.foldl_cons] at h
    rcases ih _ h with h | ⟨o', ho', h⟩
    · unfold processOfficial at h
      rcases mem_keys_insertNumbered 1 _ _ h with ⟨n, hn⟩ | h
      · exact Or.inr ⟨o, by simp, Or.inr ⟨n, hn⟩⟩
      · rcases mem_keys_dictInsert h with h | h
        · exact Or.inr ⟨o, by simp, Or.inl h⟩
        · exact Or.inl h
    · exact Or.inr ⟨o', by simp [ho'], h⟩

theorem find?_eq_head_filter {α : Type} {p : α → Bool} :
    ∀ l : List α, l.find? p = (l.filter p).head? := by
  intro l
  induction l with
  | nil => rfl
  | cons a l ih =>
    by_cases h : p a
    · rw [List.find?_cons_of_pos _ h, List.filter_cons_of_pos h]
      rfl
    · rw [List.find?_cons_of_neg _ (by simp [h]), List.filter_cons_of_neg (by simp [h]), ih]

theorem find?_some_of_mem {α : Type} {p : α → Bool} :
    ∀ {l : List α} {a : α}, a ∈ l → p a = true → ∃ b, l.find? p = some b := by
  intro l
  induction l with
  | nil => intro a ha _; simp at ha
  | cons x l ih =>
    intro a ha hp
    by_cases h : p x
    · exact ⟨x, List.find?_cons_of_pos _ h⟩
    · rw [List.find?_cons_of_neg _ (by simp [h])]
      rcases List.mem_cons.mp ha with e | e
      · rw [← e] at h; exact absurd hp h
      · exact ih e hp

theorem batchLoop_spec {α : Type} :
    ∀ (docs : List α) (n : Nat) (q : List α) (bs : List (List α)),
      q.length = n % 500 →
      (batchLoop docs n q bs).join = bs.join ++ q ++ docs ∧
      (batchLoop docs n q bs).map List.length =
        bs.map List.length ++
          List.replicate ((n + docs.length) / 500 - n / 500) 500 ++
          [(n + docs.length) % 500] := by
  intro docs
  induction docs with
  | nil =>
    intro n q bs hq
    constructor
    · show (bs ++ [q]).join = bs.join ++ q ++ []
      simp
    · show (bs ++ [q]).map List.length = _
      simp [hq]
  | cons d rest ih =>
    intro n q bs hq
    simp only [batchLoop]
    by_cases h5 : (n + 1) % 500 = 0
    · rw [if_pos h5]
      obtain ⟨hj, hm⟩ := ih (n + 1) [] (bs ++ [q ++ [d]]) (by simp; omega)
      constructor
      · rw [hj]
        simp
      · rw [hm]
        have hlen : (q ++ [d]).length = 500 := by
          rw [List.length_append, hq]
          simp
          omega
        have hmod : (n + 1 + rest.length) % 500 = (n + (rest.length + 1)) % 500 := by omega
        have hcount : (n + (rest.length + 1)) / 500 - n / 500 =
            ((n + 1 + rest.length) / 500 - (n + 1) / 500) + 1 := by omega
        simp only [List.map_append, List.map_cons, List.map_nil, hlen, List.length_cons,
          List.append_assoc, List.singleton_append, hmod, hcount]
        rw [List.replicate_succ, List.cons_append]
    · rw [if_neg h5]
      obtain ⟨hj, hm⟩ := ih (n + 1) (q ++ [d]) bs (by rw [List.length_append, hq]; simp; omega)
      constructor
      · rw [hj]
        simp
      · rw [hm]
        simp only [List.length_cons]
        rw [show n + 1 + rest.length = n + (rest.length + 1) from by omega]
        rw [show (n + 1) / 500 = n / 500 from by omega]

theorem batchRun_join {α : Type} (docs : List α) : (batchRun docs).join = docs := by
  have h := (batchLoop_spec docs 0 [] [] (by simp)).1
  simpa [batchRun] using h

theorem batchRun_sizes {α : Type} (docs : List α) :
    (batchRun docs).map List.length =
      List.replicate (docs.length / 500) 500 ++ [docs.length % 500] := by
  have h := (batchLoop_spec docs 0 [] [] (by simp)).2
  simpa [batchRun] using h

theorem batchRun_length {α : Type} (docs : List α) :
    (batchRun docs).length = docs.length / 500 + 1 := by
  have h := congrArg List.length (batchRun_sizes docs)
  simpa using h

theorem normalize_error_of_not_hasMain {e : Entry} (h : ¬HasMain e) :
    normalize e.aid e.titles = Except.error RunError.missingMainTitle := by
  have hn : e.titles.find? (fun t => decide (t.type = mainT)) = none := by
    rw [List.find?_eq_none]
    intro x hx
    simp only [decide_eq_true_eq]
    intro e'
    exact h ⟨x, hx, e'⟩
  unfold normalize
  rw [hn]

theorem normalize_ok_of_hasMain {e : Entry} (h : HasMain e) :
    normalize e.aid e.titles = Except.ok (normDoc e) := by
  obtain ⟨t, ht, htype⟩ := h
  have hp : (fun t => decide (t.type = mainT)) t = true := by simpa using htype
  obtain ⟨b, hb⟩ := find?_some_of_mem (p := fun t => decide (t.type = mainT)) ht hp
  unfold normDoc normalize
  rw [hb]

theorem ingestLoop_eq_batchLoop :
    ∀ (es : List Entry) (idx : Nat) (q : List Doc) (bs : List (List Doc)),
      (∀ e ∈ es, HasMain e) →
      ingestLoop es idx q bs = (batchLoop (es.map normDoc) idx q bs, none) := by
  intro es
  induction es with
  | nil => intro idx q bs _; rfl
  | cons e es ih =>
    intro idx q bs h
    have he := normalize_ok_of_hasMain (h e (by simp))
    simp only [ingestLoop, he, List.map_cons, batchLoop]
    by_cases h5 : (idx + 1) % 500 = 0
    · rw [if_pos h5, if_pos h5]
      exact ih _ _ _ (fun x hx => h x (by simp [hx]))
    · rw [if_neg h5, if_neg h5]
      exact ih _ _ _ (fun x hx => h x (by simp [hx]))

theorem ingestLoop_stops {e : Entry} (he : ¬HasMain e) :
    ∀ (pre post post' : List Entry) (idx : Nat) (q : List Doc) (bs : List (List Doc)),
      (∀ x ∈ pre, HasMain x) →
      ingestLoop (pre ++ e :: post) idx q bs = ingestLoop (pre ++ e :: post') idx q bs ∧
      (ingestLoop (pre ++ e :: post) idx q bs).2 = some RunError.missingMainTitle := by
  intro pre
  induction pre with
  | nil =>
    intro post post' idx q bs _
    have hn := normalize_error_of_not_hasMain he
    constructor
    · simp [ingestLoop, hn]
    · simp [ingestLoop, hn]
  | cons x pre ih =>
    intro post post' idx q bs h
    have hx := normalize_ok_of_hasMain (h x (by simp))
    by_cases h5 : (idx + 1) % 500 = 0
    · simp only [List.cons_append, ingestLoop, hx, if_pos h5, List.append_eq]
      exact ih post post' _ _ _ (fun y hy => h y (by simp [hy]))
    · simp only [List.cons_append, ingestLoop, hx, if_neg h5, List.append_eq]
      exact ih post post' _ _ _ (fun y hy => h y (by simp [hy]))

/-- Concrete titles and entries used to instantiate the theorems. -/
def exMain : TitleVariant := ⟨mainT, [], ['F', 'o', 'o']⟩

def exEntryA : Entry := ⟨1, [⟨mainT, [], ['A']⟩]⟩

def exEntryB : Entry := ⟨2, [⟨mainT, [], ['B']⟩]⟩

/-- C1, claim as stated is false: when the catalog file is absent the
run does fail with the source-not-found error and a non-zero exit, but
the index is not left untouched — the delete-all-documents call of
`get_or_create_index` has already been issued before `parse_and_index`
ever tries to open the file. -/
theorem C1_counterexample :
    (driverRun none).2 = some RunError.sourceNotFound ∧
      SinkEvent.deleteAll ∈ (driverRun none).1 := by
  constructor
  · rfl
  · decide

/-- C1 (amended): if the catalog source is absent the run fails with
`SourceNotFoundError` and exits non-zero, and the only sink call
already performed is the clear-before-load (`delete_all_documents`):
the index has been cleared but receives no documents. -/
theorem C1_source_missing :
    driverRun none = ([SinkEvent.deleteAll], some RunError.sourceNotFound) := rfl

/-- C2, claim as stated is false: a catalog of exactly 500 entries
produces two `addDocuments` calls — one of size 500 and one empty —
not ceil(500/500) = 1; the trailing empty flush is not skipped. -/
theorem C2_counterexample :
    (batchRun (List.replicate 500 (0 : Nat))).map List.length = [500, 0] ∧
      (batchRun (List.replicate 500 (0 : Nat))).length = 2 ∧
      (500 + 499) / 500 = 1 := by
  refine ⟨?_, ?_, by norm_num⟩
  · have h := batchRun_sizes (List.replicate 500 (0 : Nat))
    rw [List.length_replicate] at h
    norm_num at h
    exact h
  · have h := batchRun_length (List.replicate 500 (0 : Nat))
    rw [List.length_replicate] at h
    norm_num at h
    exact h

/-- C2 (amended): for a catalog of N ≥ 1 entries that all normalize,
the sink receives exactly N / 500 + 1 `addDocuments` calls — the
in-loop calls all of size 500 and one final call of size N % 500,
which is empty exactly when 500 divides N (the empty final flush is
submitted, not skipped) — and the concatenation of all submitted
batches is the sequence of normalized documents in source order; for
1200 entries this gives 3 calls of sizes 500, 500, 200. -/
theorem C2_batch_accumulator (entries : List Entry) (hne : entries ≠ [])
    (hall : ∀ e ∈ entries, HasMain e) :
    driverRun (some entries) =
      (SinkEvent.deleteAll :: (batchRun (entries.map normDoc)).map SinkEvent.addDocs,
        none) ∧
    (batchRun (entries.map normDoc)).flatten = entries.map normDoc ∧
    (batchRun (entries.map normDoc)).map List.length =
      List.replicate (entries.length / 500) 500 ++ [entries.length % 500] ∧
    (batchRun (entries.map normDoc)).length = entries.length / 500 + 1 := by
  refine ⟨?_, ?_, ?_, ?_⟩
  · simp only [driverRun]
    rw [if_neg (fun h => hne (List.length_eq_zero.mp h))]
    rw [ingestLoop_eq_batchLoop entries 0 [] [] hall]
    rfl
  · exact batchRun_join _
  · have h := batchRun_sizes (entries.map normDoc)
    rw [List.length_map] at h
    exact h
  · have h := batchRun_length (entries.map normDoc)
    rw [List.length_map] at h
    exact h

/-- C2 witness at a concrete two-entry catalog. -/
theorem C2_batch_accumulator_witness :
    ([exEntryA, exEntryB] ≠ []) ∧ (∀ e ∈ [exEntryA, exEntryB], HasMain e) ∧
      driverRun (some [exEntryA, exEntryB]) =
        (SinkEvent.deleteAll ::
          (batchRun ([exEntryA, exEntryB].map normDoc)).map SinkEvent.addDocs, none) :=
  ⟨by decide, by decide, (C2_batch_accumulator [exEntryA, exEntryB] (by decide) (by decide)).1⟩

/-- C3, claim as stated is false: for an entry with only a main title
the document's field set is {anime_id, main}, not {id, main} — the
id-bearing key the program writes is the string "anime_id". -/
theorem C3_counterexample :
    (normalize 7 [exMain]).map (fun d => d.map Prod.fst) =
        Except.ok [animeIdKey, mainKey] ∧
      animeIdKey ≠ ['i', 'd'] ∧ mainKey ≠ ['i', 'd'] :=
  ⟨rfl, by decide, by decide⟩

/-- C3 (amended): for every entry whose first main-typed title is `m`
and which contains no official and no short variants, normalization
succeeds and yields the document whose fields are exactly `anime_id`
(the entry's integer id) and `main` (the main variant's text), in that
order. -/
theorem C3_main_only_fields (id : Int) (ts : List TitleVariant) (m : TitleVariant)
    (hfind : ts.find? (fun t => decide (t.type = mainT)) = some m)
    (hnoOff : ∀ t ∈ ts, t.type ≠ officialT) (hnoSh : ∀ t ∈ ts, t.type ≠ shortT) :
    normalize id ts =
      Except.ok [(animeIdKey, DocVal.intVal id), (mainKey, DocVal.strVal m.text)] := by
  unfold normalize
  rw [hfind]
  rw [List.filter_eq_nil_iff.mpr (fun t ht => by simpa using hnoOff t ht)]
  rfl

/-- C3 witness at a concrete one-title entry. -/
theorem C3_main_only_fields_witness :
    ([exMain].find? (fun t => decide (t.type = mainT)) = some exMain) ∧
      (∀ t ∈ [exMain], t.type ≠ officialT) ∧ (∀ t ∈ [exMain], t.type ≠ shortT) ∧
      normalize 7 [exMain] =
        Except.ok [(animeIdKey, DocVal.intVal 7), (mainKey, DocVal.strVal exMain.text)] :=
  ⟨by rfl, by decide, by decide,
    C3_main_only_fields 7 [exMain] exMain (by rfl) (by decide) (by decide)⟩

/-- Membership from a successful `getLast?`. -/
theorem mem_of_getLast?_eq_some {α : Type} {l : List α} {a : α} :
    l.getLast? = some a → a ∈ l := by
  induction l with
  | nil => intro h; simp at h
  | cons x l ih =>
    intro h
    cases l with
    | nil =>
      simp at h
      simp [h]
    | cons y l =>
      rw [List.getLast?_cons_cons] at h
      exact List.mem_cons.mpr (Or.inr (ih h))

/-- Entry title list for the C5 counterexample: two `en` officials
followed by an `EN` official whose slug key collides with theirs. -/
def exC5 : List TitleVariant :=
  [⟨mainT, [], ['m']⟩,
   ⟨officialT, ['e', 'n'], ['x']⟩,
   ⟨officialT, ['e', 'n'], ['z']⟩,
   ⟨officialT, ['E', 'N'], ['y']⟩]

/-- C5, claim as stated is false: this entry has two official variants
of language "en" whose last one in source order has text "z", yet the
document stores "y" under the key official_en, because the later
official of language "EN" slugifies to the same key and overwrites it. -/
theorem C5_counterexample :
    2 ≤ ((exC5.filter fun t => decide (t.type = officialT)).filter
        fun t => decide (t.lang = ['e', 'n'])).length ∧
      ((exC5.filter fun t => decide (t.type = officialT)).filter
        fun t => decide (t.lang = ['e', 'n'])).getLast? =
          some ⟨officialT, ['e', 'n'], ['z']⟩ ∧
      (normalize 1 exC5).map (lookupD (officialKey ['e', 'n'])) =
        Except.ok (some (DocVal.strVal ['y'])) ∧
      (['y'] : List Char) ≠ ['z'] :=
  ⟨by decide, by rfl, by rfl, by decide⟩

/-- C5 (amended): for every entry whose official languages are all
well-formed lowercase tags, if the entry has two or more official
variants of language L then the document stores under L's official key
the text of the one appearing last in source order (last-write-wins). -/
theorem C5_last_write_wins (id : Int) (ts : List TitleVariant) (L : List Char)
    (d : Doc) (o' : TitleVariant)
    (hgood : ∀ t ∈ ts, t.type = officialT → GoodLang t.lang)
    (h2 : 2 ≤ ((ts.filter fun t => decide (t.type = officialT)).filter
        fun t => decide (t.lang = L)).length)
    (hlast : ((ts.filter fun t => decide (t.type = officialT)).filter
        fun t => decide (t.lang = L)).getLast? = some o')
    (hok : normalize id ts = Except.ok d) :
    lookupD (officialKey L) d = some (DocVal.strVal o'.text) := by
  have ho' := mem_of_getLast?_eq_some hlast
  have ho'f := List.mem_filter.mp ho'
  have ho'o := List.mem_filter.mp ho'f.1
  have hL : GoodLang L := by
    have := hgood o' ho'o.1 (by simpa using ho'o.2)
    rwa [(by simpa using ho'f.2 : o'.lang = L)] at this
  have hgood' : ∀ o ∈ ts.filter (fun t => decide (t.type = officialT)), GoodLang o.lang := by
    intro o ho
    have := List.mem_filter.mp ho
    exact hgood o this.1 (by simpa using this.2)
  unfold normalize at hok
  cases hfind : ts.find? (fun t => decide (t.type = mainT)) with
  | none =>
    rw [hfind] at hok
    exact absurd hok (by simp)
  | some m =>
    rw [hfind] at hok
    injection hok with hok
    rw [← hok]
    exact lookupD_foldl_officialKey hL _ _ o' hgood' hlast

/-- The language tag "en" is a well-formed lowercase tag. -/
theorem goodLang_en : GoodLang ['e', 'n'] := by
  refine ⟨[['e', 'n']], by simp, ?_, rfl⟩
  intro w hw
  rw [List.mem_singleton.mp hw]
  exact ⟨by simp, by decide⟩

/-- Entry title list for the C5 witness: two lowercase `en` officials. -/
def exC5w : List TitleVariant :=
  [⟨mainT, [], ['m']⟩,
   ⟨officialT, ['e', 'n'], ['x']⟩,
   ⟨officialT, ['e', 'n'], ['z']⟩]

theorem exC5w_good : ∀ t ∈ exC5w, t.type = officialT → GoodLang t.lang := by
  intro t ht
  rcases List.mem_cons.mp ht with h | h
  · rw [h]
    intro ho
    exact absurd ho (by decide)
  · rcases List.mem_cons.mp h with h | h
    · rw [h]
      intro _
      exact goodLang_en
    · rcases List.mem_cons.mp h with h | h
      · rw [h]
        intro _
        exact goodLang_en
      · simp at h

/-- C5 witness: the amended theorem applied to the two-official entry. -/
theorem C5_last_write_wins_witness :
    (2 ≤ ((exC5w.filter fun t => decide (t.type = officialT)).filter
        fun t => decide (t.lang = ['e', 'n'])).length) ∧
      lookupD (officialKey ['e', 'n']) (normDoc ⟨1, exC5w⟩) =
        some (DocVal.strVal ['z']) := by
  refine ⟨by decide, ?_⟩
  exact C5_last_write_wins 1 exC5w ['e', 'n'] (normDoc ⟨1, exC5w⟩)
    ⟨officialT, ['e', 'n'], ['z']⟩ exC5w_good (by decide) (by rfl) (by rfl)

/-- C8: documents of two entries that differ only in their id agree on
every field other than anime_id; the non-id content is a pure function
of the title list. -/
theorem C8_id_independent (id1 id2 : Int) (ts : List TitleVariant) (k : List Char)
    (hk : k ≠ animeIdKey) :
    (normalize id1 ts).map (lookupD k) = (normalize id2 ts).map (lookupD k) := by
  unfold normalize
  cases hfind : ts.find? (fun t => decide (t.type = mainT)) with
  | none => rfl
  | some m =>
    simp only [Except.map]
    congr 1
    have hkeep : ∀ id : Int,
        (ts.filter fun t => decide (t.type = officialT)).foldl (processOfficial ts)
          [(animeIdKey, DocVal.intVal id), (mainKey, DocVal.strVal m.text)] =
        (animeIdKey, DocVal.intVal id) ::
          (ts.filter fun t => decide (t.type = officialT)).foldl (processOfficial ts)
            [(mainKey, DocVal.strVal m.text)] := by
      intro id
      exact foldl_cons_keep _ _
        (fun o _ => ⟨officialKey_ne_animeId o.lang, fun n => shortKey_ne_animeId o.lang n⟩)
    rw [hkeep id1, hkeep id2, lookupD_cons_ne (Ne.symm hk), lookupD_cons_ne (Ne.symm hk)]

/-- C8 witness at a one-title entry and the main field. -/
theorem C8_id_independent_witness :
    mainKey ≠ animeIdKey ∧
      (normalize 1 [exMain]).map (lookupD mainKey) =
        (normalize 2 [exMain]).map (lookupD mainKey) :=
  ⟨by decide, C8_id_independent 1 2 [exMain] mainKey (by decide)⟩

/-- C9: an entry with two or more main-typed titles does not fail;
normalization succeeds and the document's main field holds the text of
the first main variant in source order, ignoring the later ones. -/
theorem C9_first_main_wins (id : Int) (ts : List TitleVariant) (m : TitleVariant)
    (h2 : 2 ≤ (ts.filter fun t => decide (t.type = mainT)).length)
    (hhead : (ts.filter fun t => decide (t.type = mainT)).head? = some m) :
    ∃ d, normalize id ts = Except.ok d ∧
      lookupD mainKey d = some (DocVal.strVal m.text) := by
  have hfind : ts.find? (fun t => decide (t.type = mainT)) = some m := by
    rw [find?_eq_head_filter]
    exact hhead
  unfold normalize
  rw [hfind]
  refine ⟨_, rfl, ?_⟩
  rw [lookupD_foldl_ne _ _
    (fun o _ => ⟨officialKey_ne_mainKey o.lang, fun n => shortKey_ne_mainKey o.lang n⟩)]
  simp [lookupD, animeIdKey, mainKey]

def exMainA : TitleVariant := ⟨mainT, [], ['A']⟩

def exMainB : TitleVariant := ⟨mainT, [], ['B']⟩

/-- C9 witness at an entry with two main titles. -/
theorem C9_first_main_wins_witness :
    (2 ≤ ([exMainA, exMainB].filter fun t => decide (t.type = mainT)).length) ∧
      ∃ d, normalize 1 [exMainA, exMainB] = Except.ok d ∧
        lookupD mainKey d = some (DocVal.strVal exMainA.text) :=
  ⟨by decide, C9_first_main_wins 1 [exMainA, exMainB] exMainA (by decide) (by rfl)⟩

/-- An entry with no main-typed title. -/
def exNoMain : Entry := ⟨3, []⟩

/-- C6: an entry without a main-role title aborts the whole run with
the missing-main-title error: the driver result reports the error, and
the entries after the offending one are never processed — the entire
run result is independent of what follows it (no skip-and-continue). -/
theorem C6_missing_main_fatal (pre : List Entry) (e : Entry) (post post' : List Entry)
    (hpre : ∀ x ∈ pre, HasMain x) (he : ¬HasMain e) :
    (driverRun (some (pre ++ e :: post))).2 = some RunError.missingMainTitle ∧
      driverRun (some (pre ++ e :: post)) = driverRun (some (pre ++ e :: post')) := by
  obtain ⟨heq, herr⟩ := ingestLoop_stops he pre post post' 0 [] [] hpre
  constructor
  · simp only [driverRun]
    rw [if_neg (by simp)]
    exact herr
  · simp only [driverRun]
    rw [if_neg (by simp), if_neg (by simp), heq]

/-- C6 witness: a catalog whose second entry has no main title. -/
theorem C6_missing_main_fatal_witness :
    (∀ x ∈ [exEntryA], HasMain x) ∧ ¬HasMain exNoMain ∧
      (driverRun (some ([exEntryA] ++ exNoMain :: []))).2 =
        some RunError.missingMainTitle :=
  ⟨by decide, by decide,
    (C6_missing_main_fatal [exEntryA] exNoMain [] [] (by decide) (by decide)).1⟩

/-- ASCII alphanumeric characters (either case), the alphabet the
original claim ranges over. -/
def isAsciiAlnum (c : Char) : Bool :=
  (65 ≤ c.toNat && c.toNat ≤ 90) || (97 ≤ c.toNat && c.toNat ≤ 122) ||
    (48 ≤ c.toNat && c.toNat ≤ 57)

/-- Selector for a slug key: the official key of a language, or the
numbered short key of a language and occurrence. -/
inductive SlugSel where
  | off (lang : List Char)
  | sh (lang : List Char) (occ : Nat)
deriving DecidableEq

def slugSelLang : SlugSel → List Char
  | SlugSel.off l => l
  | SlugSel.sh l _ => l

def slugKeyOf : SlugSel → List Char
  | SlugSel.off l => officialKey l
  | SlugSel.sh l i => shortKey l i

/-- C7, claim as stated is false: the distinct triples (official, "EN")
and (official, "en") — both languages made of ASCII alphanumerics —
produce the same slug key, because slugify lowercases its input. -/
theorem C7_counterexample :
    slugKeyOf (SlugSel.off ['E', 'N']) = slugKeyOf (SlugSel.off ['e', 'n']) ∧
      SlugSel.off ['E', 'N'] ≠ SlugSel.off ['e', 'n'] ∧
      (∀ c ∈ ['E', 'N'], isAsciiAlnum c = true) :=
  ⟨by rfl, by decide, by decide⟩

/-- C7 (amended): over well-formed lowercase language tags — nonempty
words of lowercase ASCII alphanumerics joined by single hyphens — the
slug keys are injective: distinct (role, language, occurrence) triples
always produce distinct keys. -/
theorem C7_slug_injective (a b : SlugSel) (ha : GoodLang (slugSelLang a))
    (hb : GoodLang (slugSelLang b)) (h : slugKeyOf a = slugKeyOf b) : a = b := by
  cases a with
  | off l1 =>
    cases b with
    | off l2 => exact congrArg SlugSel.off (officialKey_inj ha hb h)
    | sh l2 i2 => exact absurd h (officialKey_ne_shortKey l1 l2 i2)
  | sh l1 i1 =>
    cases b with
    | off l2 => exact absurd h.symm (officialKey_ne_shortKey l2 l1 i1)
    | sh l2 i2 =>
      obtain ⟨hl, hi⟩ := shortKey_inj ha hb h
      have hl' : l1 = l2 := hl
      rw [hl', hi]

/-- C7 witness: the injectivity theorem applied at the "en" tag. -/
theorem C7_slug_injective_witness :
    GoodLang (slugSelLang (SlugSel.sh ['e', 'n'] 1)) ∧
      SlugSel.sh ['e', 'n'] 1 = SlugSel.sh ['e', 'n'] 1 :=
  ⟨goodLang_en, C7_slug_injective _ _ goodLang_en goodLang_en rfl⟩

/-- Appending an element on which the predicate fails does not change
`find?`. -/
theorem find?_append_single {α : Type} {p : α → Bool} {x : α} (hx : p x = false) :
    ∀ l : List α, (l ++ [x]).find? p = l.find? p := by
  intro l
  induction l with
  | nil => simp [List.find?, hx]
  | cons a l ih =>
    by_cases h : p a
    · rw [List.cons_append, List.find?_cons_of_pos _ h, List.find?_cons_of_pos _ h]
    · rw [List.cons_append, List.find?_cons_of_neg _ (by simp [h]),
        List.find?_cons_of_neg _ (by simp [h]), ih]

/-- Appending an official variant leaves every short-name scan
unchanged. -/
theorem shortsOf_append_official (ts : List TitleVariant) (o : TitleVariant)
    (ho : o.type = officialT) (lang : List Char) :
    shortsOf (ts ++ [o]) lang = shortsOf ts lang := by
  unfold shortsOf
  rw [List.filter_append, List.filter_cons_of_neg, List.filter_nil, List.append_nil]
  intro hp
  have := (of_decide_eq_true hp).1
  rw [ho] at this
  exact absurd this (by decide)

/-- Entry title list for the C4 and C10 counterexamples: the "en" and
"EN" languages collide after slugification. -/
def exC4 : List TitleVariant :=
  [⟨mainT, [], ['m']⟩,
   ⟨officialT, ['e', 'n'], ['x']⟩,
   ⟨shortT, ['e', 'n'], ['A']⟩,
   ⟨officialT, ['E', 'N'], ['y']⟩,
   ⟨shortT, ['E', 'N'], ['B']⟩]

/-- C4, claim as stated is false: in this entry the short variant
("en", "A") has a same-language official, yet the normalized document
carries its text "A" in no field — the later "EN" official re-runs a
slug-colliding short scan and overwrites short_en_1 with "B" — so
"contributes a field iff a same-language official exists" fails. -/
theorem C4_counterexample :
    (⟨shortT, ['e', 'n'], ['A']⟩ : TitleVariant) ∈ exC4 ∧
      (∃ t ∈ exC4, t.type = officialT ∧ t.lang = ['e', 'n']) ∧
      (normalize 1 exC4).map (fun d => decide (DocVal.strVal ['A'] ∈ d.map Prod.snd)) =
        Except.ok false :=
  ⟨by decide, by decide, by rfl⟩

/-- C4 (amended): for entries whose official languages are well-formed
lowercase tags: (a) if some official variant of language L occurs
anywhere in the title list, then the j-th short variant of language L
(source order, numbering from 1) is stored under key short_L_(j+1)
with its own text; (b) every key of the document is anime_id, main, or
an official/short key derived from the language of one of the entry's
official variants — a short whose language has no official contributes
nothing. -/
theorem C4_short_fields (id : Int) (ts : List TitleVariant) (L : List Char)
    (d : Doc) (j : Nat) (k : List Char)
    (hgood : ∀ t ∈ ts, t.type = officialT → GoodLang t.lang)
    (hex : ∃ t ∈ ts, t.type = officialT ∧ t.lang = L)
    (hok : normalize id ts = Except.ok d) :
    (j < (shortsOf ts L).length →
      lookupD (shortKey L (1 + j)) d =
        some (DocVal.strVal ((shortsOf ts L).getD j []))) ∧
    (k ∈ d.map Prod.fst →
      k = animeIdKey ∨ k = mainKey ∨
        ∃ t ∈ ts, t.type = officialT ∧
          (k = officialKey t.lang ∨ ∃ n, k = shortKey t.lang n)) := by
  obtain ⟨t0, ht0, ht0o, ht0L⟩ := hex
  have hL : GoodLang L := ht0L ▸ hgood t0 ht0 ht0o
  have hgood' : ∀ o ∈ ts.filter (fun t => decide (t.type = officialT)), GoodLang o.lang := by
    intro o ho
    have := List.mem_filter.mp ho
    exact hgood o this.1 (by simpa using this.2)
  have hex' : ∃ o ∈ ts.filter (fun t => decide (t.type = officialT)), o.lang = L :=
    ⟨t0, List.mem_filter.mpr ⟨ht0, by simpa using ht0o⟩, ht0L⟩
  unfold normalize at hok
  cases hfind : ts.find? (fun t => decide (t.type = mainT)) with
  | none =>
    rw [hfind] at hok
    exact absurd hok (by simp)
  | some m =>
    rw [hfind] at hok
    injection hok with hok
    constructor
    · intro hj
      rw [← hok]
      exact lookupD_foldl_shortKey hL _ _ hgood' hex' j hj
    · intro hk
      rw [← hok] at hk
      rcases keys_foldl_subset _ _ hk with hk | ⟨o, ho, hko⟩
      · simp only [List.map_cons, List.map_nil, List.mem_cons, List.mem_singleton] at hk
        rcases hk with hk | hk | hk
        · exact Or.inl hk
        · exact Or.inr (Or.inl hk)
        · simp at hk
      · have := List.mem_filter.mp ho
        exact Or.inr (Or.inr ⟨o, this.1, by simpa using this.2, hko⟩)

/-- Entry title list for the C4 and C10 witnesses: spec scenario 2. -/
def exC4w : List TitleVariant :=
  [⟨mainT, [], ['m']⟩,
   ⟨officialT, ['e', 'n'], ['O']⟩,
   ⟨shortT, ['e', 'n'], ['A']⟩,
   ⟨shortT, ['e', 'n'], ['B']⟩]

theorem exC4w_good : ∀ t ∈ exC4w, t.type = officialT → GoodLang t.lang := by
  intro t ht
  rcases List.mem_cons.mp ht with h | h
  · rw [h]
    intro ho
    exact absurd ho (by decide)
  · rcases List.mem_cons.mp h with h | h
    · rw [h]
      intro _
      exact goodLang_en
    · rcases List.mem_cons.mp h with h | h
      · rw [h]
        intro ho
        exact absurd ho (by decide)
      · rcases List.mem_cons.mp h with h | h
        · rw [h]
          intro ho
          exact absurd ho (by decide)
        · simp at h

/-- C4 witness: scenario 2 of the spec, via the amended theorem. -/
theorem C4_short_fields_witness :
    (∃ t ∈ exC4w, t.type = officialT ∧ t.lang = ['e', 'n']) ∧
      (0 < (shortsOf exC4w ['e', 'n']).length →
        lookupD (shortKey ['e', 'n'] (1 + 0)) (normDoc ⟨1, exC4w⟩) =
          some (DocVal.strVal ((shortsOf exC4w ['e', 'n']).getD 0 []))) :=
  ⟨by decide,
    (C4_short_fields 1 exC4w ['e', 'n'] (normDoc ⟨1, exC4w⟩) 0 mainKey
      exC4w_good (by decide) (by rfl)).1⟩

/-- C10, claim as stated is false: appending a repeated official
("en", "x") to the collision entry alters the short field short_en_1,
changing its value from "B" back to "A". -/
theorem C10_counterexample :
    (∃ t ∈ exC4, t.type = officialT ∧ t.lang = ['e', 'n']) ∧
      (normalize 1 (exC4 ++ [⟨officialT, ['e', 'n'], ['x']⟩])).map
          (lookupD (shortKey ['e', 'n'] 1)) =
        Except.ok (some (DocVal.strVal ['A'])) ∧
      (normalize 1 exC4).map (lookupD (shortKey ['e', 'n'] 1)) =
        Except.ok (some (DocVal.strVal ['B'])) ∧
      DocVal.strVal ['A'] ≠ DocVal.strVal ['B'] :=
  ⟨by decide, by rfl, by rfl, by decide⟩

/-- C10 (amended): for entries whose official languages are well-formed
lowercase tags, appending a repeated official variant for a language L
that already has an official changes no short field of the document:
every key beginning with the character 's' — exactly the short-key
namespace, since official keys begin with 'o' and the fixed keys with
'a' and 'm' — maps to the same value before and after. -/
theorem C10_short_fields_stable (id : Int) (ts : List TitleVariant) (L v r : List Char)
    (hgood : ∀ t ∈ ts, t.type = officialT → GoodLang t.lang)
    (hex : ∃ t ∈ ts, t.type = officialT ∧ t.lang = L) :
    (normalize id (ts ++ [⟨officialT, L, v⟩])).map (lookupD ('s' :: r)) =
      (normalize id ts).map (lookupD ('s' :: r)) := by
  obtain ⟨t0, ht0, ht0o, ht0L⟩ := hex
  have hL : GoodLang L := ht0L ▸ hgood t0 ht0 ht0o
  have hgood' : ∀ o ∈ ts.filter (fun t => decide (t.type = officialT)), GoodLang o.lang := by
    intro o ho
    have := List.mem_filter.mp ho
    exact hgood o this.1 (by simpa using this.2)
  have hex' : ∃ o ∈ ts.filter (fun t => decide (t.type = officialT)), o.lang = L :=
    ⟨t0, List.mem_filter.mpr ⟨ht0, by simpa using ht0o⟩, ht0L⟩
  have hfindeq := find?_append_single (p := fun t => decide (t.type = mainT))
    (x := ⟨officialT, L, v⟩) (by show decide (officialT = mainT) = false; decide) ts
  unfold normalize
  rw [hfindeq]
  cases hfind : ts.find? (fun t => decide (t.type = mainT)) with
  | none => rfl
  | some m =>
    simp only [Except.map]
    congr 1
    have hpo : processOfficial (ts ++ [(⟨officialT, L, v⟩ : TitleVariant)]) =
        processOfficial ts := by
      funext d o'
      unfold processOfficial
      rw [shortsOf_append_official ts _ rfl o'.lang]
    have hsplit : (ts ++ [(⟨officialT, L, v⟩ : TitleVariant)]).filter
        (fun t => decide (t.type = officialT)) =
        ts.filter (fun t => decide (t.type = officialT)) ++ [⟨officialT, L, v⟩] := by
      rw [List.filter_append,
        List.filter_cons_of_pos (by show decide (officialT = officialT) = true; decide),
        List.filter_nil]
    have hshorts : shortsOf (ts ++ [(⟨officialT, L, v⟩ : TitleVariant)]) =
        shortsOf ts := by
      funext lang
      exact shortsOf_append_official ts _ rfl lang
    rw [hpo, hsplit, List.foldl_append]
    set D := (ts.filter fun t => decide (t.type = officialT)).foldl (processOfficial ts)
      [(animeIdKey, DocVal.intVal id), (mainKey, DocVal.strVal m.text)] with hD
    show lookupD ('s' :: r) (List.foldl (processOfficial ts) D [⟨officialT, L, v⟩]) =
      lookupD ('s' :: r) D
    rw [List.foldl_cons, List.foldl_nil]
    unfold processOfficial
    have habsorb : insertNumbered L 1 (shortsOf ts L)
        (dictInsert (officialKey L) (DocVal.strVal v) D) =
        dictInsert (officialKey L) (DocVal.strVal v) D := by
      refine insertNumbered_absorb 1 _ _ (fun j hj => ?_)
      rw [lookupD_dictInsert_ne (officialKey_ne_shortKey L L (1 + j))]
      exact lookupD_foldl_shortKey hL _ _ hgood' hex' j hj
    rw [habsorb]
    obtain ⟨ro, hro⟩ := officialKey_head L
    refine lookupD_dictInsert_ne ?_ _ _
    rw [hro]
    intro e
    rw [List.cons.injEq] at e
    exact absurd e.1 (by decide)

/-- C10 witness: the stability theorem applied to scenario 2's entry,
at the key short_en_1. -/
theorem C10_short_fields_stable_witness :
    (∃ t ∈ exC4w, t.type = officialT ∧ t.lang = ['e', 'n']) ∧
      (normalize 1 (exC4w ++ [⟨officialT, ['e', 'n'], ['O']⟩])).map
          (lookupD ('s' :: ['h', 'o', 'r', 't', '_', 'e', 'n', '_', '1'])) =
        (normalize 1 exC4w).map
          (lookupD ('s' :: ['h', 'o', 'r', 't', '_', 'e', 'n', '_', '1'])) :=
  ⟨by decide,
    C10_short_fields_stable 1 exC4w ['e', 'n'] ['O']
      ['h', 'o', 'r', 't', '_', 'e', 'n', '_', '1'] exC4w_good (by decide)⟩

end AniDB
